import Mathlib

/-!
Verification of the rawenum discriminant-resolution and reverse-lookup
code generator (src/src/lib.rs).

The macro takes a list of requested integer type names and an input
declaration.  It validates the type list, requires the declaration to be
an enum, and for each requested type it emits a from_<type> function
whose body matches the input value against per-variant constants
obtained by casting each discriminant to the requested type.

The discriminant values themselves and the cast semantics are supplied
by the host compiler, so they are modelled from the spec; the
validation logic and the shape of the generated match are embedded
directly from the macro source.
-/

namespace Rawenum

/-- Modelled from the spec: 64-bit signed wraparound arithmetic used for
the running discriminant counter (section 4.1 of the spec; the host
compiler performs this arithmetic, it is not code under src/).
Maps an integer to its two's-complement representative in
the interval from -(2 ^ 63) to 2 ^ 63 - 1. -/
def wrap64 (v : Int) : Int :=
  (v + 2 ^ 63) % 2 ^ 64 - 2 ^ 63

/-- One enum variant as written by the user: a name and an optional
explicit discriminant value (an i64 integer). -/
structure MemberDecl where
  name : String
  explicitValue : Option Int
deriving DecidableEq

/-- A variant together with its resolved discriminant tag. -/
structure ResolvedMember where
  name : String
  tag : Int
deriving DecidableEq

/-- Modelled from the spec: the host-compiler discriminant assignment
relied upon by the generated consts (EnumName::Variant as T in
src/src/lib.rs line 183).  Carries the running counter: an explicit
value is copied verbatim and the counter becomes that value plus one
(wrapping); an implicit member receives the counter. -/
def resolveAux : Int → List MemberDecl → List ResolvedMember
  | _, [] => []
  | counter, m :: rest =>
    match m.explicitValue with
    | some v => ⟨m.name, v⟩ :: resolveAux (wrap64 (v + 1)) rest
    | none => ⟨m.name, counter⟩ :: resolveAux (wrap64 (counter + 1)) rest

/-- Modelled from the spec: discriminant resolution for a whole
declaration, starting the implicit counter at zero. -/
def resolve (members : List MemberDecl) : List ResolvedMember :=
  resolveAux 0 members

/-- One target integer format: a bit width and a signedness flag. -/
structure Representation where
  width : Nat
  signed : Bool
deriving DecidableEq

/-- Modelled from the spec: the host-compiler cast of a 64-bit signed
tag to the representation (the as-cast in the generated const on
src/src/lib.rs line 183): truncate the two's-complement bit pattern to
the given width and reinterpret it under the given signedness. -/
def narrow (tag : Int) (r : Representation) : Int :=
  let m := tag % (2 ^ r.width : Int)
  if r.signed = true ∧ 2 ^ (r.width - 1) ≤ m then m - 2 ^ r.width else m

/-- The behaviour of one generated from_<type> function
(src/src/lib.rs lines 199-215): the input value is matched against the
per-variant constants (each the variant discriminant cast to the
representation) in declaration order, the first matching arm returning
that variant, with a final catch-all arm returning none. -/
def fromRep (resolved : List ResolvedMember) (r : Representation) (value : Int) :
    Option ResolvedMember :=
  resolved.find? (fun m => narrow m.tag r == value)

/-- The supported integer type names (src/src/lib.rs line 116). -/
def SUPPORTED_TYPES : List String :=
  ["i8", "u8", "i16", "u16", "i32", "u32", "i64", "u64"]

/-- The representation denoted by each supported type name. -/
def typeRepr (s : String) : Option Representation :=
  if s = "i8" then some ⟨8, true⟩
  else if s = "u8" then some ⟨8, false⟩
  else if s = "i16" then some ⟨16, true⟩
  else if s = "u16" then some ⟨16, false⟩
  else if s = "i32" then some ⟨32, true⟩
  else if s = "u32" then some ⟨32, false⟩
  else if s = "i64" then some ⟨64, true⟩
  else if s = "u64" then some ⟨64, false⟩
  else none

/-- The errors the macro can report (src/src/lib.rs lines 96-110 and
144-155): empty type list, non-enum input, unsupported type name. -/
inductive RawenumError where
  | emptyTypeList
  | malformedDeclaration
  | unsupportedType (s : String)
deriving DecidableEq

/-- The shape of the annotated declaration: an enum with its variant
list, or any other kind of item (struct, union, ...). -/
inductive InputData where
  | enumData (variants : List MemberDecl)
  | otherData
deriving DecidableEq

/-- Per-type validation loop of the macro (src/src/lib.rs lines
119-155): each requested type name is checked against the supported
set in order; the first unsupported name aborts with an error,
otherwise the list of denoted representations is produced. -/
def processTypes : List String → Except RawenumError (List Representation)
  | [] => Except.ok []
  | s :: rest =>
    match typeRepr s with
    | none => Except.error (RawenumError.unsupportedType s)
    | some r =>
      match processTypes rest with
      | Except.ok l => Except.ok (r :: l)
      | Except.error e => Except.error e

/-- Top level of the macro (src/src/lib.rs lines 87-232): first the
empty-type-list check (line 96), then the enum-shape check (line 106),
then the per-type validation and generation loop.  On success it
yields the list of representations for which a from_ function is
generated; the behaviour of the function generated for representation
r on variants vs is fromRep (resolve vs) r. -/
def rawenum (specified : List String) (data : InputData) :
    Except RawenumError (List Representation) :=
  if specified.isEmpty then Except.error RawenumError.emptyTypeList
  else
    match data with
    | InputData.otherData => Except.error RawenumError.malformedDeclaration
    | InputData.enumData _ => processTypes specified

/-- A type name denotes a representation exactly when it is in the
supported-types table that the macro checks against. -/
theorem typeRepr_isSome_iff (s : String) :
    (typeRepr s).isSome = SUPPORTED_TYPES.contains s := by
  simp only [typeRepr, SUPPORTED_TYPES, List.contains_cons,
    List.contains_nil, Bool.or_false]
  split_ifs with h1 h2 h3 h4 h5 h6 h7 h8
  · subst h1; decide
  · subst h2; decide
  · subst h3; decide
  · subst h4; decide
  · subst h5; decide
  · subst h6; decide
  · subst h7; decide
  · subst h8; decide
  · simp only [Option.isSome_none]
    symm
    simp only [Bool.or_eq_false_iff, beq_eq_false_iff_ne]
    exact ⟨h1, h2, h3, h4, h5, h6, h7, h8⟩

/-- Resolution preserves the number of members. -/
theorem resolveAux_length (c : Int) (ms : List MemberDecl) :
    (resolveAux c ms).length = ms.length := by
  induction ms generalizing c with
  | nil => rfl
  | cons m rest ih =>
    cases h : m.explicitValue <;> simp [resolveAux, h, ih]

/-- A member with an explicit value resolves to exactly that value. -/
theorem resolveAux_explicit (c : Int) (ms : List MemberDecl) (i : Nat)
    (m : MemberDecl) (rm : ResolvedMember) (v : Int)
    (hm : ms[i]? = some m) (hrm : (resolveAux c ms)[i]? = some rm)
    (hv : m.explicitValue = some v) : rm.tag = v := by
  induction ms generalizing c i with
  | nil => simp at hm
  | cons x rest ih =>
    cases i with
    | zero =>
      simp only [List.getElem?_cons_zero, Option.some.injEq] at hm
      subst hm
      simp only [resolveAux, hv, List.getElem?_cons_zero, Option.some.injEq] at hrm
      subst hrm
      rfl
    | succ k =>
      simp only [List.getElem?_cons_succ] at hm
      cases hx : x.explicitValue <;>
        simp only [resolveAux, hx, List.getElem?_cons_succ] at hrm <;>
        exact ih _ _ hm hrm

/-- A member with no explicit value at the head of the remaining list
resolves to the running counter. -/
theorem resolveAux_implicit_head (c : Int) (ms : List MemberDecl)
    (m : MemberDecl) (rm : ResolvedMember)
    (hm : ms[0]? = some m) (hrm : (resolveAux c ms)[0]? = some rm)
    (hv : m.explicitValue = none) : rm.tag = c := by
  cases ms with
  | nil => simp at hm
  | cons x rest =>
    simp only [List.getElem?_cons_zero, Option.some.injEq] at hm
    subst hm
    simp only [resolveAux, hv, List.getElem?_cons_zero, Option.some.injEq] at hrm
    subst hrm
    rfl

/-- A member with no explicit value after the first position resolves
to the immediately preceding resolved tag plus one, wrapping. -/
theorem resolveAux_implicit_succ (c : Int) (ms : List MemberDecl) (j : Nat)
    (m : MemberDecl) (rm prev : ResolvedMember)
    (hm : ms[j + 1]? = some m) (hrm : (resolveAux c ms)[j + 1]? = some rm)
    (hprev : (resolveAux c ms)[j]? = some prev)
    (hv : m.explicitValue = none) : rm.tag = wrap64 (prev.tag + 1) := by
  induction ms generalizing c j with
  | nil => simp at hm
  | cons x rest ih =>
    cases j with
    | zero =>
      simp only [List.getElem?_cons_succ] at hm
      cases hx : x.explicitValue with
      | some v =>
        simp only [resolveAux, hx, List.getElem?_cons_zero, List.getElem?_cons_succ,
          Option.some.injEq] at hrm hprev
        subst hprev
        exact resolveAux_implicit_head _ _ _ _ hm hrm hv
      | none =>
        simp only [resolveAux, hx, List.getElem?_cons_zero, List.getElem?_cons_succ,
          Option.some.injEq] at hrm hprev
        subst hprev
        exact resolveAux_implicit_head _ _ _ _ hm hrm hv
    | succ k =>
      simp only [List.getElem?_cons_succ] at hm
      cases hx : x.explicitValue <;>
        simp only [resolveAux, hx, List.getElem?_cons_succ] at hrm hprev <;>
        exact ih _ _ hm hrm hprev

/-- Claim C1: for every declaration accepted by the macro, the resolved
discriminant of each variant satisfies: an explicit value is copied
verbatim; an implicit first member resolves to 0; any other implicit
member resolves to the immediately preceding resolved tag plus one with
two's-complement 64-bit wraparound.  The resolved sequence has one
entry per member. -/
theorem resolver_correct (members : List MemberDecl) (i : Nat)
    (m : MemberDecl) (rm : ResolvedMember)
    (hm : members[i]? = some m) (hrm : (resolve members)[i]? = some rm) :
    (resolve members).length = members.length ∧
    (∀ v, m.explicitValue = some v → rm.tag = v) ∧
    (m.explicitValue = none → i = 0 → rm.tag = 0) ∧
    (∀ j prev, m.explicitValue = none → i = j + 1 →
      (resolve members)[j]? = some prev → rm.tag = wrap64 (prev.tag + 1)) := by
  refine ⟨resolveAux_length 0 members, ?_, ?_, ?_⟩
  · intro v hv
    exact resolveAux_explicit 0 members i m rm v hm hrm hv
  · intro hv h0
    subst h0
    exact resolveAux_implicit_head 0 members m rm hm hrm hv
  · intro j prev hv hij hprev
    subst hij
    exact resolveAux_implicit_succ 0 members j m rm prev hm hrm hprev hv

/-- Witness for C1 on the declaration Start = 100, Next. -/
theorem resolver_correct_witness :
    (⟨"Next", 101⟩ : ResolvedMember).tag =
      wrap64 ((⟨"Start", 100⟩ : ResolvedMember).tag + 1) :=
  (resolver_correct [⟨"Start", some 100⟩, ⟨"Next", none⟩] 1
    ⟨"Next", none⟩ ⟨"Next", 101⟩ (by decide) (by decide)).2.2.2 0
    ⟨"Start", 100⟩ rfl rfl (by decide)

/-- Claim C2: the narrowed tag compared against the input in a
generated from_ method is the standard two's-complement truncation of
the 64-bit tag to the representation width, reinterpreted under the
representation signedness: it is congruent to the tag modulo 2 ^ width
and lies in the canonical value range of the representation; in
particular 256 narrowed to unsigned 8-bit is 0, -5 narrowed to unsigned
8-bit is 251, and -1 narrowed to unsigned 16-bit is 65535. -/
theorem narrow_correct (tag : Int) (r : Representation) (h : 0 < r.width) :
    narrow tag r % 2 ^ r.width = tag % 2 ^ r.width ∧
    (r.signed = true →
      -(2 ^ (r.width - 1)) ≤ narrow tag r ∧ narrow tag r < 2 ^ (r.width - 1)) ∧
    (r.signed = false → 0 ≤ narrow tag r ∧ narrow tag r < 2 ^ r.width) ∧
    narrow 256 ⟨8, false⟩ = 0 ∧ narrow (-5) ⟨8, false⟩ = 251 ∧
    narrow (-1) ⟨16, false⟩ = 65535 := by
  have e1 : narrow 256 ⟨8, false⟩ = 0 := by decide
  have e2 : narrow (-5) ⟨8, false⟩ = 251 := by decide
  have e3 : narrow (-1) ⟨16, false⟩ = 65535 := by decide
  have hw : r.width = (r.width - 1) + 1 := by omega
  have hpow : (2 : Int) ^ r.width = 2 * 2 ^ (r.width - 1) := by
    conv_lhs => rw [hw]
    rw [pow_succ, mul_comm]
  have h2 : (0 : Int) < 2 ^ r.width := by positivity
  have ha : (0 : Int) < 2 ^ (r.width - 1) := by positivity
  have hm0 : 0 ≤ tag % 2 ^ r.width := Int.emod_nonneg tag (ne_of_gt h2)
  have hm1 : tag % 2 ^ r.width < 2 ^ r.width := Int.emod_lt_of_pos tag h2
  have hmm : tag % 2 ^ r.width % 2 ^ r.width = tag % 2 ^ r.width :=
    Int.emod_emod_of_dvd tag dvd_rfl
  refine ⟨?_, ?_, ?_, e1, e2, e3⟩
  · simp only [narrow]
    split_ifs with hc
    · rw [Int.sub_emod, Int.emod_self, sub_zero, hmm, hmm]
    · exact hmm
  · intro hs
    simp only [narrow]
    split_ifs with hc
    · obtain ⟨hsgn, hge⟩ := hc
      constructor <;> linarith
    · rw [not_and_or] at hc
      have hlt : tag % 2 ^ r.width < 2 ^ (r.width - 1) := by
        rcases hc with hc | hc
        · exact absurd hs hc
        · exact not_le.mp hc
      constructor <;> linarith
  · intro hs
    simp only [narrow]
    split_ifs with hc
    · rw [hs] at hc
      exact absurd hc.1 (by simp)
    · exact ⟨hm0, hm1⟩

/-- Witness for C2 at tag -5 and the unsigned 8-bit representation. -/
theorem narrow_correct_witness :
    narrow (-5) ⟨8, false⟩ % 2 ^ (8 : Nat) = (-5 : Int) % 2 ^ (8 : Nat) :=
  (narrow_correct (-5) ⟨8, false⟩ (by decide)).1

/-- An element of a map image at an index. -/
theorem getElem?_map_eq {α β : Type} (f : α → β) (l : List α) (i : Nat) :
    (l.map f)[i]? = Option.map f l[i]? := by
  induction l generalizing i with
  | nil => simp
  | cons x rest ih => cases i <;> simp [ih]

/-- An element found at an index is a member of the list. -/
theorem mem_of_getElem?_eq_some {α : Type} {l : List α} {i : Nat} {a : α}
    (h : l[i]? = some a) : a ∈ l := by
  induction l generalizing i with
  | nil => simp at h
  | cons x rest ih =>
    cases i with
    | zero =>
      simp only [List.getElem?_cons_zero, Option.some.injEq] at h
      subst h
      exact List.mem_cons_self x rest
    | succ k =>
      simp only [List.getElem?_cons_succ] at h
      exact List.mem_cons_of_mem x (ih h)

/-- In a duplicate-free list, an element determines its index. -/
theorem nodup_getElem?_inj {α : Type} (l : List α) (hnd : l.Nodup)
    (i j : Nat) (a : α) (hi : l[i]? = some a) (hj : l[j]? = some a) : i = j := by
  induction l generalizing i j with
  | nil => simp at hi
  | cons x rest ih =>
    obtain ⟨hx, hrest⟩ := List.nodup_cons.mp hnd
    cases i with
    | zero =>
      cases j with
      | zero => rfl
      | succ k =>
        simp only [List.getElem?_cons_zero, Option.some.injEq] at hi
        simp only [List.getElem?_cons_succ] at hj
        subst hi
        exact absurd (mem_of_getElem?_eq_some hj) hx
    | succ k =>
      cases j with
      | zero =>
        simp only [List.getElem?_cons_zero, Option.some.injEq] at hj
        simp only [List.getElem?_cons_succ] at hi
        subst hj
        exact absurd (mem_of_getElem?_eq_some hi) hx
      | succ k2 =>
        simp only [List.getElem?_cons_succ] at hi hj
        rw [ih hrest k k2 hi hj]

/-- If some index satisfies the predicate, the first-match search
succeeds. -/
theorem find?_isSome_of_index {α : Type} (p : α → Bool) (l : List α)
    (i : Nat) (a : α) (ha : l[i]? = some a) (hp : p a = true) :
    ∃ b, l.find? p = some b := by
  induction l generalizing i with
  | nil => simp at ha
  | cons x rest ih =>
    cases hx : p x with
    | true => exact ⟨x, by simp [List.find?, hx]⟩
    | false =>
      cases i with
      | zero =>
        simp only [List.getElem?_cons_zero, Option.some.injEq] at ha
        subst ha
        rw [hx] at hp
        exact absurd hp (by simp)
      | succ k =>
        simp only [List.getElem?_cons_succ] at ha
        obtain ⟨b, hb⟩ := ih k ha
        exact ⟨b, by simp [List.find?, hx, hb]⟩

/-- The first-match search returns the element at the least index
satisfying the predicate: every earlier element fails it. -/
theorem find?_eq_some_index {α : Type} (p : α → Bool) (l : List α) (b : α)
    (h : l.find? p = some b) :
    ∃ i : Nat, l[i]? = some b ∧ p b = true ∧
      ∀ (j : Nat) (c : α), j < i → l[j]? = some c → p c = false := by
  induction l with
  | nil => simp [List.find?] at h
  | cons x rest ih =>
    cases hx : p x with
    | true =>
      have hxb : x = b := by
        have := h
        simp only [List.find?, hx, Option.some.injEq] at this
        exact this
      subst hxb
      refine ⟨0, by simp, hx, ?_⟩
      intro j c hj
      omega
    | false =>
      have h2 : rest.find? p = some b := by
        have := h
        simp only [List.find?, hx] at this
        exact this
      obtain ⟨i, h1, hpb, h3⟩ := ih h2
      refine ⟨i + 1, by simpa using h1, hpb, ?_⟩
      intro j c hj hc
      cases j with
      | zero =>
        simp only [List.getElem?_cons_zero, Option.some.injEq] at hc
        subst hc
        exact hx
      | succ k =>
        simp only [List.getElem?_cons_succ] at hc
        exact h3 k c (by omega) hc

/-- If the element at index i satisfies the predicate and every earlier
element fails it, the first-match search returns that element. -/
theorem find?_eq_of_first {α : Type} (p : α → Bool) (l : List α)
    (i : Nat) (a : α) (ha : l[i]? = some a) (hp : p a = true)
    (hmin : ∀ j c, j < i → l[j]? = some c → p c = false) :
    l.find? p = some a := by
  induction l generalizing i with
  | nil => simp at ha
  | cons x rest ih =>
    cases i with
    | zero =>
      simp only [List.getElem?_cons_zero, Option.some.injEq] at ha
      subst ha
      simp [List.find?, hp]
    | succ k =>
      simp only [List.getElem?_cons_succ] at ha
      have hx : p x = false := hmin 0 x (by omega) (by simp)
      have htail : rest.find? p = some a :=
        ih k ha fun j c hj hc => hmin (j + 1) c (by omega) (by simpa using hc)
      simp [List.find?, hx, htail]

/-- In a declaration with unique member names, an entry of the resolved
list determines its index. -/
theorem resolved_index_unique (resolved : List ResolvedMember)
    (hnames : (resolved.map ResolvedMember.name).Nodup)
    (i j : Nat) (a b : ResolvedMember)
    (hi : resolved[i]? = some a) (hj : resolved[j]? = some b)
    (hab : a.name = b.name) : i = j := by
  apply nodup_getElem?_inj _ hnames i j a.name
  · rw [getElem?_map_eq, hi]
    rfl
  · rw [getElem?_map_eq, hj]
    simp [hab]

/-- Claim C3: if two or more members narrow to the same value under a
representation, the generated from_ function maps that value to the
earliest such member in declaration order, and a later member with a
colliding narrowed tag is never returned for any input. -/
theorem first_writer_wins (resolved : List ResolvedMember) (r : Representation)
    (i j : Nat) (mi mj : ResolvedMember)
    (hi : resolved[i]? = some mi) (hj : resolved[j]? = some mj)
    (hij : i < j) (hcol : narrow mi.tag r = narrow mj.tag r)
    (hnames : (resolved.map ResolvedMember.name).Nodup) :
    (∃ (k : Nat) (mk : ResolvedMember), resolved[k]? = some mk ∧ k ≤ i ∧
      narrow mk.tag r = narrow mj.tag r ∧
      (∀ (k2 : Nat) (m2 : ResolvedMember), k2 < k → resolved[k2]? = some m2 →
        narrow m2.tag r ≠ narrow mj.tag r) ∧
      fromRep resolved r (narrow mj.tag r) = some mk) ∧
    (∀ value, fromRep resolved r value ≠ some mj) := by
  constructor
  · have hp : (narrow mi.tag r == narrow mj.tag r) = true := by
      simp [hcol]
    obtain ⟨b, hb⟩ :=
      find?_isSome_of_index (fun m => narrow m.tag r == narrow mj.tag r)
        resolved i mi hi hp
    obtain ⟨k, hk1, hk2, hk3⟩ :=
      find?_eq_some_index (fun m => narrow m.tag r == narrow mj.tag r)
        resolved b hb
    have hki : k ≤ i := by
      by_contra hcon
      have hfalse := hk3 i mi (by omega) hi
      rw [hp] at hfalse
      exact absurd hfalse (by simp)
    refine ⟨k, b, hk1, hki, by simpa using hk2, ?_, hb⟩
    intro k2 m2 hk2lt hm2
    have := hk3 k2 m2 hk2lt hm2
    simpa using this
  · intro value hval
    simp only [fromRep] at hval
    obtain ⟨k, hk1, hk2, hk3⟩ :=
      find?_eq_some_index (fun m => narrow m.tag r == value) resolved mj hval
    have hveq : narrow mj.tag r = value := by simpa using hk2
    have hik : ¬ i < k := by
      intro hcon
      have hfalse := hk3 i mi hcon hi
      rw [hcol, hveq] at hfalse
      simp at hfalse
    have hkj : k = j := resolved_index_unique resolved hnames k j mj mj hk1 hj rfl
    omega

/-- Witness for C3: tags 1 and 257 collide under the unsigned 8-bit
representation, so the later member is unreachable. -/
theorem first_writer_wins_witness :
    fromRep [⟨"A", 1⟩, ⟨"B", 257⟩] ⟨8, false⟩ 1 ≠ some ⟨"B", 257⟩ :=
  (first_writer_wins [⟨"A", 1⟩, ⟨"B", 257⟩] ⟨8, false⟩ 0 1 ⟨"A", 1⟩ ⟨"B", 257⟩
    (by decide) (by decide) (by decide) (by decide) (by decide)).2 1

/-- Claim C4: a member whose narrowed tag collides with no other member
is recovered by the generated from_ function applied to its narrowed
tag. -/
theorem round_trip (resolved : List ResolvedMember) (r : Representation)
    (i : Nat) (m : ResolvedMember) (hi : resolved[i]? = some m)
    (huniq : ∀ (j : Nat) (m2 : ResolvedMember), resolved[j]? = some m2 → j ≠ i →
      narrow m2.tag r ≠ narrow m.tag r) :
    fromRep resolved r (narrow m.tag r) = some m := by
  simp only [fromRep]
  apply find?_eq_of_first _ resolved i m hi (by simp)
  intro j c hj hc
  exact beq_eq_false_iff_ne.mpr (huniq j c hc (by omega))

/-- Witness for C4 on the declaration Zero = 0, One = 1 under the
signed 8-bit representation. -/
theorem round_trip_witness :
    fromRep [⟨"Zero", 0⟩, ⟨"One", 1⟩] ⟨8, true⟩
      (narrow (⟨"One", 1⟩ : ResolvedMember).tag ⟨8, true⟩) = some ⟨"One", 1⟩ :=
  round_trip [⟨"Zero", 0⟩, ⟨"One", 1⟩] ⟨8, true⟩ 1 ⟨"One", 1⟩ (by decide)
    (by
      intro j m2 hj hne
      cases j with
      | zero =>
        simp only [List.getElem?_cons_zero, Option.some.injEq] at hj
        subst hj
        decide
      | succ k =>
        cases k with
        | zero => exact absurd rfl hne
        | succ k2 => simp at hj)

/-- Claim C5: each generated from_ function is total: it returns none
exactly when no member narrowed tag equals the input, and whenever it
returns a member that member occurs in the declaration and its narrowed
tag equals the input. -/
theorem lookup_total (resolved : List ResolvedMember) (r : Representation)
    (value : Int) :
    (fromRep resolved r value = none ↔
      ∀ (i : Nat) (m : ResolvedMember), resolved[i]? = some m → narrow m.tag r ≠ value) ∧
    (∀ m, fromRep resolved r value = some m →
      ∃ i : Nat, resolved[i]? = some m ∧ narrow m.tag r = value) := by
  constructor
  · constructor
    · intro hnone i m hm hval
      obtain ⟨b, hb⟩ :=
        find?_isSome_of_index (fun m2 => narrow m2.tag r == value)
          resolved i m hm (by simp [hval])
      simp only [fromRep] at hnone
      rw [hnone] at hb
      exact absurd hb (by simp)
    · intro hall
      simp only [fromRep]
      cases hfind : resolved.find? (fun m => narrow m.tag r == value) with
      | none => rfl
      | some b =>
        obtain ⟨i, h1, h2, _⟩ := find?_eq_some_index _ _ _ hfind
        exact absurd (show narrow b.tag r = value by simpa using h2) (hall i b h1)
  · intro m hm
    simp only [fromRep] at hm
    obtain ⟨i, h1, h2, _⟩ := find?_eq_some_index _ _ _ hm
    exact ⟨i, h1, by simpa using h2⟩

/-- Witness for C5 on a one-member declaration and input 5. -/
theorem lookup_total_witness :
    ∀ m, fromRep [⟨"A", 0⟩] ⟨8, true⟩ 5 = some m →
      ∃ i : Nat, ([⟨"A", 0⟩] : List ResolvedMember)[i]? = some m ∧
        narrow m.tag ⟨8, true⟩ = 5 :=
  (lookup_total [⟨"A", 0⟩] ⟨8, true⟩ 5).2

/-- The per-type loop never reports the malformed-declaration error. -/
theorem processTypes_ne_malformed (ts : List String) :
    processTypes ts ≠ Except.error RawenumError.malformedDeclaration := by
  induction ts with
  | nil =>
    intro hcon
    simp [processTypes] at hcon
  | cons s rest ih =>
    intro hcon
    simp only [processTypes] at hcon
    cases hs : typeRepr s with
    | none =>
      rw [hs] at hcon
      simp at hcon
    | some r =>
      rw [hs] at hcon
      cases hrest : processTypes rest with
      | ok l =>
        rw [hrest] at hcon
        simp at hcon
      | error e =>
        rw [hrest] at hcon
        simp only [Except.error.injEq] at hcon
        exact ih (by rw [hrest, hcon])

/-- If every requested name is supported, the per-type loop succeeds. -/
theorem processTypes_ok_of_supported (ts : List String)
    (h : ∀ s ∈ ts, SUPPORTED_TYPES.contains s = true) :
    ∃ l, processTypes ts = Except.ok l := by
  induction ts with
  | nil => exact ⟨[], rfl⟩
  | cons s rest ih =>
    have hs : SUPPORTED_TYPES.contains s = true := h s (List.mem_cons_self s rest)
    have hsome : (typeRepr s).isSome = true := by
      rw [typeRepr_isSome_iff]
      exact hs
    obtain ⟨r, hr⟩ := Option.isSome_iff_exists.mp hsome
    obtain ⟨l, hl⟩ := ih fun s2 hs2 => h s2 (List.mem_cons_of_mem s hs2)
    exact ⟨r :: l, by simp only [processTypes, hr, hl]⟩

/-- If some requested name is unsupported, the per-type loop aborts
with the unsupported-representation error for such a name. -/
theorem processTypes_error_of_unsupported (ts : List String)
    (h : ∃ s ∈ ts, SUPPORTED_TYPES.contains s = false) :
    ∃ s2, s2 ∈ ts ∧ SUPPORTED_TYPES.contains s2 = false ∧
      processTypes ts = Except.error (RawenumError.unsupportedType s2) := by
  induction ts with
  | nil =>
    obtain ⟨s, hs, _⟩ := h
    simp at hs
  | cons x rest ih =>
    cases hx : typeRepr x with
    | none =>
      have hxc : SUPPORTED_TYPES.contains x = false := by
        rw [← typeRepr_isSome_iff, hx]
        rfl
      exact ⟨x, List.mem_cons_self x rest, hxc, by simp only [processTypes, hx]⟩
    | some r =>
      have hxc : SUPPORTED_TYPES.contains x = true := by
        rw [← typeRepr_isSome_iff, hx]
        rfl
      obtain ⟨s, hs, hsf⟩ := h
      have hs_rest : s ∈ rest := by
        rcases List.mem_cons.mp hs with h1 | h1
        · subst h1
          rw [hxc] at hsf
          exact absurd hsf (by simp)
        · exact h1
      obtain ⟨s2, h1, h2, h3⟩ := ih ⟨s, hs_rest, hsf⟩
      exact ⟨s2, List.mem_cons_of_mem x h1, h2, by simp only [processTypes, hx, h3]⟩

/-- Claim C6 counterexample: an enum declaration with zero members is
accepted by the macro rather than rejected with the
malformed-declaration error. -/
theorem zero_members_accepted :
    rawenum ["i8"] (InputData.enumData []) = Except.ok [⟨8, true⟩] ∧
    rawenum ["i8"] (InputData.enumData []) ≠
      Except.error RawenumError.malformedDeclaration := by
  have h1 : rawenum ["i8"] (InputData.enumData []) = Except.ok [⟨8, true⟩] := rfl
  refine ⟨h1, ?_⟩
  intro hcon
  rw [h1] at hcon
  exact absurd hcon (by simp)

/-- Claim C6 (amended): given a non-empty requested type list, the
macro fails with the malformed-declaration error exactly when the
annotated declaration is not an enum; an enum with zero members is
accepted. -/
theorem malformed_iff_not_enum (specified : List String) (data : InputData)
    (h : specified ≠ []) :
    rawenum specified data = Except.error RawenumError.malformedDeclaration ↔
      data = InputData.otherData := by
  have hne : specified.isEmpty = false := by
    cases specified with
    | nil => exact absurd rfl h
    | cons a l => rfl
  constructor
  · intro hcon
    cases data with
    | otherData => rfl
    | enumData vs =>
      simp [rawenum, hne] at hcon
      exact absurd hcon (processTypes_ne_malformed specified)
  · intro hd
    subst hd
    simp [rawenum, hne]

/-- Witness for C6 (amended) on a struct input. -/
theorem malformed_iff_not_enum_witness :
    rawenum ["u8"] InputData.otherData =
      Except.error RawenumError.malformedDeclaration :=
  (malformed_iff_not_enum ["u8"] InputData.otherData (by decide)).mpr rfl

/-- Claim C7: evaluation of the macro at the failing input.  With no
requested types the macro reports the empty-type-list error instead of
defaulting to all eight representations, while tests/basic.rs applies
the bare attribute and expects all eight from_ functions. -/
theorem empty_attr_rejected :
    rawenum [] (InputData.enumData [⟨"Zero", some 0⟩, ⟨"One", some 1⟩]) =
      Except.error RawenumError.emptyTypeList := rfl

/-- Claim C8: with an empty requested type list the macro fails with
the empty-type-list error for any input declaration, and no lookup
function list is produced. -/
theorem empty_set_error (data : InputData) :
    rawenum [] data = Except.error RawenumError.emptyTypeList ∧
    ∀ l, rawenum [] data ≠ Except.ok l := by
  refine ⟨rfl, ?_⟩
  intro l hcon
  simp [rawenum] at hcon

/-- Witness for C8 on a struct input. -/
theorem empty_set_error_witness :
    rawenum [] InputData.otherData = Except.error RawenumError.emptyTypeList :=
  (empty_set_error InputData.otherData).1

/-- Claim C9: if any requested type is not one of the eight supported
width and signedness pairs, the macro produces no lookup functions,
and on an enum input it fails with the unsupported-representation
error for an unsupported requested type. -/
theorem unsupported_rejected (specified : List String) (data : InputData)
    (s : String) (hs : s ∈ specified)
    (hns : SUPPORTED_TYPES.contains s = false) :
    (∀ l, rawenum specified data ≠ Except.ok l) ∧
    (∀ variants, data = InputData.enumData variants →
      ∃ s2, s2 ∈ specified ∧ SUPPORTED_TYPES.contains s2 = false ∧
        rawenum specified data = Except.error (RawenumError.unsupportedType s2)) := by
  have hne : specified.isEmpty = false := by
    cases specified with
    | nil => simp at hs
    | cons a l => rfl
  have hproc := processTypes_error_of_unsupported specified ⟨s, hs, hns⟩
  constructor
  · intro l hcon
    cases data with
    | otherData => simp [rawenum, hne] at hcon
    | enumData vs =>
      simp [rawenum, hne] at hcon
      obtain ⟨s2, _, _, h3⟩ := hproc
      rw [h3] at hcon
      exact absurd hcon (by simp)
  · intro variants hd
    subst hd
    obtain ⟨s2, h1, h2, h3⟩ := hproc
    refine ⟨s2, h1, h2, ?_⟩
    simp [rawenum, hne]
    exact h3

/-- Witness for C9 on the unsupported type name i128. -/
theorem unsupported_rejected_witness :
    rawenum ["i128"] (InputData.enumData []) =
      Except.error (RawenumError.unsupportedType "i128") := by
  obtain ⟨s2, h1, h2, h3⟩ :=
    (unsupported_rejected ["i128"] (InputData.enumData []) "i128"
      (by decide) (by decide)).2 [] rfl
  have hs : s2 = "i128" := by simpa using h1
  rw [hs] at h3
  exact h3

/-- Claim C10: an enum with zero variants and a non-empty supported
requested type list is accepted, and every generated from_ function
returns none on every input. -/
theorem empty_enum_ok (specified : List String) (hne : specified ≠ [])
    (hsup : ∀ s ∈ specified, SUPPORTED_TYPES.contains s = true) :
    (∃ l, rawenum specified (InputData.enumData []) = Except.ok l) ∧
    (∀ (r : Representation) (value : Int), fromRep (resolve []) r value = none) := by
  have hb : specified.isEmpty = false := by
    cases specified with
    | nil => exact absurd rfl hne
    | cons a l => rfl
  constructor
  · obtain ⟨l, hl⟩ := processTypes_ok_of_supported specified hsup
    refine ⟨l, ?_⟩
    simp [rawenum, hb]
    exact hl
  · intro r value
    rfl

/-- Witness for C10 with the single requested type u8. -/
theorem empty_enum_ok_witness :
    fromRep (resolve []) ⟨8, true⟩ 0 = none :=
  (empty_enum_ok ["u8"] (by decide) (by decide)).2 ⟨8, true⟩ 0

end Rawenum
